import Mathlib

/-!
Verification of the core tile pipeline of the `tiles` repository.

The definitions below are a shallow embedding of the C++ sources:
  * `src/src/db/feature_pack.cc`   — feature packer (`packer`, `find_best_tile`,
    `make_quad_key`, `pack_features` in its three overloads);
  * `src/src/mvt/tile_builder.cc`  — the MVT tile builder;
  * `src/unnamed/part_001`         — `query_features` (string database keys);
  * `src/unnamed/part_002`         — `prepare_manager` (batch scheduler, stats);
  * `src/unnamed/part_003`         — fixed-geometry `shift`;
  * `src/unnamed/part_004`         — the HTTP server routes.

Machine integers are modelled as `Nat`/`Int` with explicit `% 2^32` where
unsigned wrap-around matters.  Components of the repository that are not part
of the provided sources (the geo tile library, `tile_spec` bounds, the
quad-tree blob codec, serialization) are modelled from the specification and
marked as such in their doc comments.
-/

namespace Tiles

/-! ## Tiles and fixed-coordinate boxes -/

/-- A slippy-map tile `(z, x, y)`; mirrors `geo::tile`. -/
structure Tile where
  z : Nat
  x : Nat
  y : Nat
  deriving DecidableEq, Repr

/-- An axis-aligned box in fixed coordinates (signed, `fixed_coord_t`). -/
structure Box where
  minx : Int
  miny : Int
  maxx : Int
  maxy : Int
  deriving DecidableEq, Repr

/-- The `kMaxZoomLevel` of the repository (spec: `MAX_Z = 20`). -/
def kMaxZoomLevel : Nat := 20

/-- Modelled from the spec: the fixed grid has width `2^FIX_BITS`,
`FIX_BITS = 32`, so a tile at zoom `z` spans `2^(32 - z)` fixed pixels. -/
def tileSpan (z : Nat) : Int := (2 : Int) ^ (32 - z)

/-- Modelled from the spec: `tile_spec{t}.insert_bounds_` — the tile's pixel
bounds, *not* expanded by a buffer ("Insertion bounds (used by the packer …)
are not expanded").elsewhere `tile_spec` is not part of the given sources. -/
def insertBounds (t : Tile) : Box :=
  { minx := t.x * tileSpan t.z
    miny := t.y * tileSpan t.z
    maxx := (t.x + 1) * tileSpan t.z
    maxy := (t.y + 1) * tileSpan t.z }

/-- The overlap test of `find_best_tile` (feature_pack.cc:73-77), negated:
the feature box and the tile box intersect. -/
def boxOverlaps (featureBox tileBox : Box) : Bool :=
  !((featureBox.maxx < tileBox.minx || featureBox.minx > tileBox.maxx) ||
    (featureBox.maxy < tileBox.miny || featureBox.miny > tileBox.maxy))

/-- Embeds `geo::tile::direct_children()` (geo library, modelled): the four children
of a tile at the next zoom level. -/
def Tile.directChildren (t : Tile) : List Tile :=
  [⟨t.z + 1, 2 * t.x, 2 * t.y⟩, ⟨t.z + 1, 2 * t.x + 1, 2 * t.y⟩,
   ⟨t.z + 1, 2 * t.x, 2 * t.y + 1⟩, ⟨t.z + 1, 2 * t.x + 1, 2 * t.y + 1⟩]

/-- Embeds `geo::tile::parent()` (geo library, modelled). -/
def Tile.parent (t : Tile) : Tile := ⟨t.z - 1, t.x / 2, t.y / 2⟩

/-- Embeds `geo::tile::quad_pos()` (geo library, modelled): the position of a tile
within its parent's quad. -/
def Tile.quadPos (t : Tile) : Nat := t.x % 2 + 2 * (t.y % 2)

/-- The ancestor of `t` at zoom `z` (for `z ≤ t.z`). -/
def Tile.ancestorAt (t : Tile) (z : Nat) : Tile :=
  ⟨z, t.x / 2 ^ (t.z - z), t.y / 2 ^ (t.z - z)⟩

/-- Holds when `a` is `t` itself or an ancestor of `t` in the quad tree. -/
def ancestorOrSelf (a t : Tile) : Prop := a.z ≤ t.z ∧ t.ancestorAt a.z = a

instance (a t : Tile) : Decidable (ancestorOrSelf a t) := by
  unfold ancestorOrSelf; infer_instance

/-! ## `find_best_tile` (feature_pack.cc:65-90)

The loop scans the four children; `next_best` holds the first matching child;
a second match returns the current `best`; no match hits a `verify` (a crash,
modelled as `none`). -/

/-- Result of one scan over `direct_children()`. -/
inductive ScanResult where
  | twoMatch : ScanResult
  | oneMatch : Tile → ScanResult
  | noMatch : ScanResult
  deriving DecidableEq, Repr

/-- The `for (child : best.direct_children())` loop with its `next_best`
accumulator. -/
def scanChildren (fb : Box) : List Tile → Option Tile → ScanResult
  | [], none => .noMatch
  | [], some t => .oneMatch t
  | c :: cs, acc =>
    if boxOverlaps fb (insertBounds c) then
      match acc with
      | some _ => .twoMatch  -- second match: return best
      | none => scanChildren fb cs (some c)
    else scanChildren fb cs acc

/-- The `while (best.z_ < kMaxZoomLevel)` loop; fuel is the remaining zoom
budget, so `findBestTile` below runs it `kMaxZoomLevel - root.z` times. -/
def findBestTileAux (fb : Box) : Nat → Tile → Option Tile
  | 0, best => some best
  | fuel + 1, best =>
    match scanChildren fb best.directChildren none with
    | .twoMatch => some best  -- two matches -> take prev best
    | .oneMatch c => findBestTileAux fb fuel c
    | .noMatch => none  -- verify(next_best, "at least one child must match")

/-- Embeds `find_best_tile(root, feature)`, applied to the feature's bounding box
(`bounding_box` lives outside the given sources and is taken as input). -/
def findBestTile (root : Tile) (fb : Box) : Option Tile :=
  findBestTileAux fb (kMaxZoomLevel - root.z) root

/-! ## Fixed geometry and `shift` (part_003)

`fixed_geometry` is a boost variant over null / point / polyline / polygon
(spec §3); coordinates are signed fixed-point integers. -/

/-- The variant `fixed_geometry`. A polyline is a list of lines, a polygon a
list of rings; `shift` only ever touches the raw coordinate lists. -/
inductive FixedGeo where
  | null : FixedGeo
  | point : Int × Int → FixedGeo
  | polyline : List (List (Int × Int)) → FixedGeo
  | polygon : List (List (Int × Int)) → FixedGeo
  deriving DecidableEq, Repr

/-- Arithmetic right shift of a signed coordinate by `d` bits, i.e. floor
division by `2^d` (C++ `>>` on a negative signed integer). -/
def sar (x : Int) (d : Nat) : Int := Int.fdiv x ((2 : Int) ^ d)

/-- Embeds `shift(fixed_xy&, delta_z)` (part_003:7-10). -/
def shiftPoint (p : Int × Int) (d : Nat) : Int × Int := (sar p.1 d, sar p.2 d)

/-- Embeds `shift(fixed_geometry&, z)` (part_003:22-26): `delta_z = 20 - z`, then a
visitor dispatch.  Note the polygon overload (part_003:20) has an empty body:
polygon coordinates are left untouched. -/
def shiftGeo (g : FixedGeo) (z : Nat) : FixedGeo :=
  let d := 20 - z
  match g with
  | .null => .null
  | .point p => .point (shiftPoint p d)
  | .polyline ls => .polyline (ls.map (fun l => l.map (shiftPoint · d)))
  | .polygon rs => .polygon rs

/-- What the claim states `shift` does: divide *every* coordinate (of every
variant) by `2^(Z_REF - z)`.  Kept separate from `shiftGeo`, which embeds the
source. -/
def shiftGeoSpec (g : FixedGeo) (z : Nat) : FixedGeo :=
  let d := 20 - z
  match g with
  | .null => .null
  | .point p => .point (shiftPoint p d)
  | .polyline ls => .polyline (ls.map (fun l => l.map (shiftPoint · d)))
  | .polygon rs => .polygon (rs.map (fun l => l.map (shiftPoint · d)))

/-! ## `prepare_manager` (part_002:262-320) -/

/-- Unsigned 32-bit truncation. -/
def u32 (n : Nat) : Nat := n % 2 ^ 32

/-- Computes `8u - zc` in C++ unsigned arithmetic (wraps modulo `2^32`). -/
def u32sub (a b : Nat) : Nat := u32 (a + 2 ^ 32 - u32 b)

/-- The shift amount `std::max(8u - curr_zoomlevel_, 0u)` of
`prepare_manager::get_batch` (part_002:274).  Both operands are unsigned, so
the `max` with `0u` never clamps. -/
def shiftAmtCode (zc : Nat) : Nat := max (u32sub 8 zc) 0

/-- The stride the spec prescribes: `2^max(8 - zc, 0)` with *signed* `max`. -/
def strideSpec (zc : Nat) : Nat := 2 ^ (Int.toNat (max ((8 : Int) - zc) 0))

/-- Embeds `prepare_stats` (part_002:254-260). -/
structure PrepareStats where
  nTotal : Nat
  nFinished : Nat
  nEmpty : Nat
  sumSize : Nat
  sumDur : Nat
  deriving DecidableEq, Repr

def PrepareStats.init : PrepareStats := ⟨0, 0, 0, 0, 0⟩

/-- The stats update of `prepare_manager::finish` (part_002:291-301):
`sum_size_ += size; sum_dur_ += dur; ++n_finished_;
if (size != 0) ++n_empty_;`. -/
def finishStats (s : PrepareStats) (size dur : Nat) : PrepareStats :=
  { s with
    sumSize := s.sumSize + size
    sumDur := s.sumDur + dur
    nFinished := s.nFinished + 1
    nEmpty := if size ≠ 0 then s.nEmpty + 1 else s.nEmpty }

/-- Fold `finish` over a zoom level's rendered results `(size, dur)`. -/
def finishAll (results : List (Nat × Nat)) : PrepareStats :=
  results.foldl (fun s r => finishStats s r.1 r.2) PrepareStats.init

/-- The number of results whose rendered size is `0` — what the spec calls
the `empty` statistic. -/
def countEmptyResults (results : List (Nat × Nat)) : Nat :=
  (results.filter (fun r => r.1 == 0)).length

/-! ## Database keys as written by `query_features` (part_001)

`query_features` builds its range-scan keys with
`std::to_string(tile_coords_to_key(...))` and compares them with
`el->first < key_end`, i.e. byte-wise on the decimal ASCII string. -/

/-- Decimal digit bytes of `n`, most significant first, fuel-driven. -/
def decDigitsAux : Nat → Nat → List Nat
  | 0, _ => []
  | fuel + 1, n => if n = 0 then [] else decDigitsAux fuel (n / 10) ++ [n % 10 + 48]

/-- Renders `std::to_string(n)` as a list of ASCII byte values. -/
def decKey (n : Nat) : List Nat := if n = 0 then [48] else decDigitsAux n n

/-- Byte-wise lexicographic "less than" as used by the key-value store and by
`el->first < key_end` on `std::string`s. -/
def bytesLt : List Nat → List Nat → Bool
  | [], [] => false
  | [], _ :: _ => true
  | _ :: _, [] => false
  | a :: as, b :: bs => if a < b then true else if b < a then false else bytesLt as bs

/-! ## HTTP routes (part_004) -/

/-- The reply the route handlers build; `cors` records whether
`add_cors_headers` ran on it. -/
structure Reply where
  status : Nat
  cors : Bool
  content : String
  deriving DecidableEq, Repr

/-- Models `reply::stock_reply(reply::ok)` — the HTTP library's canned reply for
status `ok`, which is HTTP 200 (net library, modelled from its standard
status codes). -/
def stockReplyOk : Reply := { status := 200, cors := false, content := "" }

/-- Models `add_cors_headers(rep)` (net library): attaches the CORS headers. -/
def addCorsHeaders (r : Reply) : Reply := { r with cors := true }

/-- The `OPTIONS` route (part_004:24-28): a stock `ok` reply plus CORS
headers. -/
def optionsRoute : Reply := addCorsHeaders stockReplyOk

/-- The `GET /{z}/{x}/{y}.mvt` route body (part_004:31-51).  `render` stands
for `tiles::render_tile(db, tile)`, which may throw (`Except.error`).  On
success the handler calls `cb(rep)`; on an exception both catch blocks only
log — `cb` is never invoked, so no reply is sent (`none`). -/
def getRoute (render : Except String String) : Option Reply :=
  match render with
  | .ok bytes => some (addCorsHeaders { status := 200, cors := false, content := bytes })
  | .error _ => none

/-! ## `tile_builder` (tile_builder.cc:211-353)

`simplify` and `clip` live outside the given sources; the builder is
parametric in them.  A layer message is modelled structurally (the protobuf
fields written by `layer_builder`), not as bytes. -/

/-- A feature as handed to `tile_builder::add_feature`; only the fields the
builder reads are kept. -/
structure TFeature where
  meta : List (String × String)
  geom : FixedGeo
  deriving DecidableEq

/-- The per-layer builder state (`layer_builder`, tile_builder.cc:211-297).
`version`/`extent` record the values written by the constructor. -/
structure LayerBuilder where
  name : String
  version : Nat
  extent : Nat
  hasGeometry : Bool
  features : List FixedGeo
  deriving DecidableEq

/-- Embeds `layer_builder::layer_builder` (tile_builder.cc:212-218): writes
version 2, the name, and extent 4096. -/
def layerInit (name : String) : LayerBuilder :=
  { name := name, version := 2, extent := 4096, hasGeometry := false, features := [] }

def isNullGeo : FixedGeo → Bool
  | .null => true
  | _ => false

/-- Embeds `layer_builder::write_geometry` (tile_builder.cc:236-248):
simplify → clip → (null ⇒ drop) → shift → encode.  Returns the geometry that
gets encoded, or `none` when it clipped to null. -/
def writeGeometry (simplifyF : FixedGeo → Nat → FixedGeo) (clipF : FixedGeo → FixedGeo)
    (z : Nat) (g : FixedGeo) : Option FixedGeo :=
  let g1 := simplifyF g z
  let g2 := clipF g1
  if isNullGeo g2 then none else some (shiftGeo g2 z)

/-- Embeds `layer_builder::add_feature` (tile_builder.cc:220-230); `in_z_range`
always returns true (tile_builder.cc:232-234). -/
def layerAddFeature (simplifyF : FixedGeo → Nat → FixedGeo) (clipF : FixedGeo → FixedGeo)
    (z : Nat) (lb : LayerBuilder) (f : TFeature) : LayerBuilder :=
  match writeGeometry simplifyF clipF z f.geom with
  | some enc => { lb with hasGeometry := true, features := lb.features ++ [enc] }
  | none => lb

/-- The `std::map<std::string, unique_ptr<layer_builder>> builders_` of
`tile_builder::impl`, as its key set plus the builder for each key. -/
structure TBState where
  names : List String
  get : String → LayerBuilder

def TBState.init : TBState := { names := [], get := layerInit }

/-- Embeds `tile_builder::impl::add_feature` (tile_builder.cc:303-314): skip when
`meta_["layer"]` is absent, else `get_or_create` the layer builder and feed
the feature to it. -/
def tbAddFeature (simplifyF : FixedGeo → Nat → FixedGeo) (clipF : FixedGeo → FixedGeo)
    (z : Nat) (st : TBState) (f : TFeature) : TBState :=
  match f.meta.lookup "layer" with
  | none => st  -- skip invalid feature
  | some nm =>
    let base := if st.names.contains nm then st.get nm else layerInit nm
    { names := if st.names.contains nm then st.names else st.names ++ [nm]
      get := fun n => if n = nm then layerAddFeature simplifyF clipF z base f else st.get n }

/-- Embeds `tile_builder::impl::finish` (tile_builder.cc:316-337): emit each layer
whose builder has `has_geometry_`. -/
def tbFinish (st : TBState) : List LayerBuilder :=
  (st.names.filter (fun n => (st.get n).hasGeometry)).map st.get

/-- Running a whole render: add every feature, then finish. -/
def tileBuilderRun (simplifyF : FixedGeo → Nat → FixedGeo) (clipF : FixedGeo → FixedGeo)
    (z : Nat) (fs : List TFeature) : List LayerBuilder :=
  tbFinish (fs.foldl (tbAddFeature simplifyF clipF z) TBState.init)

/-! ## The packing phase driver `pack_features(tile_db_handle&)`
(feature_pack.cc:178-256)

Each round of the do-while loop is one batch: a first transaction reads and
deletes raw entries (stopping at a tile boundary once `kPackBatchThreshold`
bytes of packs were produced), then `env_.sync()`, then a second transaction
writes the packs.  We record the database traffic as a list of events. -/

/-- Bit interleaving of `x` and `y` over `n` bit positions. -/
def interleaveBits : Nat → Nat → Nat → Nat
  | 0, _, _ => 0
  | n + 1, x, y => x % 2 + 2 * (y % 2) + 4 * interleaveBits n (x / 2) (y / 2)

/-- Modelled from the spec: the tile key `(z << 58) | (x interleaved with y)`
(`make_feature_key` / `make_tile_key` of `tile_index.h`, not among the given
sources). -/
def makeFeatureKey (t : Tile) : Nat := t.z * 2 ^ 58 + interleaveBits t.z t.x t.y

/-- A raw entry of the `features` table: the tile it belongs to (recoverable
from its key by `feature_key_to_tile`) and its serialized feature list. -/
structure DbEntry where
  tile : Tile
  feats : List String
  deriving DecidableEq

/-- Database traffic: transaction begins/commits, per-key deletes and puts
(tagged with the id of the transaction performing them), `env_.sync()`. -/
inductive DbEv where
  | txnBegin : Nat → DbEv
  | del : Nat → Nat → DbEv
  | put : Nat → Nat → DbEv
  | commit : Nat → DbEv
  | sync : DbEv
  deriving DecidableEq, Repr

/-- The `kPackBatchThreshold` (feature_pack.cc:176). -/
def kPackBatchThreshold : Nat := 64 * 1024 * 1024

/-- The sentinel `geo::tile{uint32_max, uint32_max, uint32_max}`
(feature_pack.cc:192-194). -/
def sentinelTile : Tile := ⟨2 ^ 32 - 1, 2 ^ 32 - 1, 2 ^ 32 - 1⟩

/-- On a tile change, the pending features (if any) become one pack
(feature_pack.cc:218-227 and 235-239). -/
def emitPack (cur : Tile) (feats : List String) : List (Tile × List String) :=
  if feats.isEmpty then [] else [(cur, feats)]

/-- The cursor loop of one batch (feature_pack.cc:203-239).  `sz t fs` stands
for the byte size of `pack_features(t, …, fs)` (kept abstract).  Returns the
keys deleted, the packs produced, and the entries left for the next batch
(the code's `resume_key` points at the first of them). -/
def collectLoop (sz : Tile → List String → Nat) (thresh : Nat) :
    List DbEntry → Tile → List String → Nat →
    List Nat × List (Tile × List String) × List DbEntry
  | [], cur, feats, _ => ([], emitPack cur feats, [])
  | e :: rest, cur, feats, accSize =>
    if cur ≠ e.tile ∧ thresh ≤ accSize then
      ([], emitPack cur feats, e :: rest)  -- resume_key = el->first; break
    else if cur = e.tile then
      let next := collectLoop sz thresh rest cur (feats ++ e.feats) accSize
      (makeFeatureKey e.tile :: next.1, next.2)
    else
      let emitted := emitPack cur feats
      let next := collectLoop sz thresh rest e.tile e.feats
        (accSize + (emitted.map (fun p => sz p.1 p.2)).sum)
      (makeFeatureKey e.tile :: next.1, emitted ++ next.2.1, next.2.2)

/-- The events of one batch: collect-and-delete in transaction `2i+1`,
commit, `sync`, write the packs in transaction `2i+2`, commit. -/
def batchTrace (i : Nat) (dels puts : List Nat) : List DbEv :=
  [.txnBegin (2 * i + 1)] ++ dels.map (fun k => .del k (2 * i + 1)) ++
  [.commit (2 * i + 1), .sync, .txnBegin (2 * i + 2)] ++
  puts.map (fun k => .put k (2 * i + 2)) ++ [.commit (2 * i + 2)]

/-- The do-while loop of `pack_features(tile_db_handle&)`: batches run while
a `resume_key` remains. -/
def packDriver (sz : Tile → List String → Nat) (thresh : Nat) :
    Nat → List DbEntry → Nat → List DbEv
  | 0, _, _ => []
  | fuel + 1, entries, i =>
    let step := collectLoop sz thresh entries sentinelTile [] 0
    batchTrace i step.1 (step.2.1.map (fun p => makeFeatureKey p.1)) ++
      (if step.2.2.isEmpty then [] else packDriver sz thresh fuel step.2.2 (i + 1))

/-- The full event trace of the packing phase over a features table. -/
def packPhaseTrace (sz : Tile → List String → Nat) (entries : List DbEntry) : List DbEv :=
  packDriver sz kPackBatchThreshold (entries.length + 1) entries 0

/-! ## `pack_features(tile, coding_vec, coding_map, strings)`
(feature_pack.cc:130-174)

Serialization and the meta-coding dictionaries live outside the given
sources, so a feature is modelled by the fields the packer actually reads:
its `min_z`, its bounding box, and its (re-serialized) payload. -/

/-- A feature as seen by the packer. -/
structure PFeat where
  minZ : Nat
  box : Box
  payload : String
  deriving DecidableEq

/-- A feature decorated for sorting (`packable_feature`,
feature_pack.cc:110-128). -/
structure PackableFeat where
  quadKey : List Nat
  bestTile : Tile
  feat : PFeat
  deriving DecidableEq

/-- The chain `t, t.parent(), …` — `n + 1` tiles up the parent chain. -/
def chainToRoot : Nat → Tile → List Tile
  | 0, t => [t]
  | n + 1, t => t :: chainToRoot n t.parent

/-- Embeds `make_quad_key(root, tile)` (feature_pack.cc:92-108): empty for the root
itself, else the `quad_pos` values along the path root → tile. -/
def makeQuadKey (root t : Tile) : List Nat :=
  if t = root then []
  else ((chainToRoot (t.z - root.z) t).reverse).map Tile.quadPos

/-- Computes `max(tile.z_, feature->zoom_levels_.first) - tile.z_`
(feature_pack.cc:144): the min-zoom bucket of a feature. -/
def bucketIdx (T : Tile) (f : PFeat) : Nat := max T.z f.minZ - T.z

/-- Strict lexicographic order on quad keys. -/
def natListLt : List Nat → List Nat → Bool
  | [], [] => false
  | [], _ :: _ => true
  | _ :: _, [] => false
  | a :: as, b :: bs => a < b || (a == b && natListLt as bs)

/-- An order on tiles (`geo::tile::operator<`, modelled as `(z, x, y)`
lexicographic; any total order gives the same pack contents up to span
order). -/
def tileLt (a b : Tile) : Bool :=
  a.z < b.z || (a.z == b.z && (a.x < b.x || (a.x == b.x && a.y < b.y)))

/-- Embeds `packable_feature::operator<` (feature_pack.cc:117-120): lexicographic on
`(quad_key, best_tile, payload)`. -/
def pfLt (a b : PackableFeat) : Bool :=
  natListLt a.quadKey b.quadKey ||
  (a.quadKey == b.quadKey &&
    (tileLt a.bestTile b.bestTile ||
      (a.bestTile == b.bestTile && decide (a.feat.payload < b.feat.payload))))

/-- The non-strict counterpart used for sorting. -/
def pfLe (a b : PackableFeat) : Bool := !(pfLt b a)

/-- Maximal runs of consecutive elements with equal key
(`utl::equal_ranges` over a sorted vector, modelled from the spec:
"Group equal-quad_key runs into spans"). -/
def runsBy (eqk : α → α → Bool) : List α → List (List α)
  | [] => []
  | a :: rest =>
    match runsBy eqk rest with
    | [] => [[a]]
    | [] :: gs => [a] :: gs  -- unreachable: runs are never empty
    | (b :: g) :: gs =>
      if eqk a b then (a :: b :: g) :: gs else [a] :: (b :: g) :: gs

/-- A span of the pack: its quad-tree input tile (`lb->best_tile_`,
feature_pack.cc:163-164) and the features written contiguously. -/
structure Span where
  tile : Tile
  feats : List PFeat
  deriving DecidableEq

/-- One run becomes one span (`append_span` over `[lb, ub)` plus the
quad-tree input `(lb->best_tile_, offset, 1)`). -/
def runToSpan : List PackableFeat → Span
  | [] => ⟨⟨0, 0, 0⟩, []⟩  -- unreachable: runsBy yields nonempty runs
  | p :: ps => ⟨p.bestTile, (p :: ps).map PackableFeat.feat⟩

/-- An `Option`-propagating map (the deserialize/`find_best_tile` loop with its
`verify`s; a failed `verify` aborts, modelled as `none`). -/
def optionMap (g : α → Option β) : List α → Option (List β)
  | [] => some []
  | a :: l =>
    match g a, optionMap g l with
    | some b, some bs => some (b :: bs)
    | _, _ => none

/-- Build one `packable_feature` (feature_pack.cc:137-147). -/
def buildPF (T : Tile) (f : PFeat) : Option PackableFeat :=
  match findBestTile T f.box with
  | some bt => some ⟨makeQuadKey T bt, bt, f⟩
  | none => none

/-- Embeds `features_by_min_z` (feature_pack.cc:135-147): one bucket per min-zoom
value in `[T.z, kMaxZoomLevel]`, holding the features in input order. -/
def packBuckets (T : Tile) (pfs : List PackableFeat) : List (List PackableFeat) :=
  (List.range (kMaxZoomLevel + 1 - T.z)).map
    (fun i => pfs.filter (fun p => bucketIdx T p.feat == i))

/-- One bucket's spans (feature_pack.cc:152-167): sort, then one span per
equal-quad-key run. -/
def bucketSpans (bucket : List PackableFeat) : List Span :=
  (runsBy (fun a b => a.quadKey == b.quadKey) (bucket.mergeSort pfLe)).map runToSpan

/-- Embeds `pack_features(tile, …, strings)`, at the level of its span structure:
the per-bucket lists of spans.  `none` models a `verify` failure or an
out-of-range `features_by_min_z.at(z)`. -/
def packFeaturesM (T : Tile) (fs : List PFeat) : Option (List (List Span)) :=
  match optionMap (buildPF T) fs with
  | none => none
  | some pfs =>
    if pfs.all (fun p => bucketIdx T p.feat < kMaxZoomLevel + 1 - T.z) then
      some ((packBuckets T pfs).map bucketSpans)
    else none

/-- Modelled from the spec: the quad-tree blob lookup ("given a lookup tile L
… returns the set of feature-span offsets whose best tile is equal to or
ancestor-of L"; `make_quad_tree`/`walk_quad_tree` are not among the given
sources). -/
def qtLookup (spans : List Span) (L : Tile) : List Span :=
  spans.filter (fun s => decide (ancestorOrSelf s.tile L))

/-- The property claimed for a produced pack: the features reachable through
its spans — across min-z buckets and across quad-tree lookups of descendant
tiles — are exactly the input features, without loss or duplication. -/
def packOk (T : Tile) (fs : List PFeat) (P : List (List Span)) : Prop :=
  ((P.map (fun bucket => (bucket.map Span.feats).flatten)).flatten).Perm fs ∧
  (∀ bucket ∈ P, ∀ s ∈ bucket, ∃ L, ancestorOrSelf T L ∧ s ∈ qtLookup bucket L) ∧
  (∀ bucket ∈ P, ∀ L, ∀ s ∈ qtLookup bucket L, s ∈ bucket)

/-! # Theorems -/

/-- C2.  The claim says `shift(g, z)` right-shifts every coordinate of every
geometry variant by `Z_REF - z`.  The code does so for points and polylines,
but the polygon overload (part_003:20) has an empty body, so polygon
coordinates are returned unshifted: at `z = 10` the polygon coordinate 4096
should become 4, yet `shift` leaves it at 4096.  Points and polylines are
shifted as claimed. -/
theorem shift_polygon_is_noop :
    shiftGeo (FixedGeo.polygon [[(4096, 8192), (4096, 0), (0, 0), (4096, 8192)]]) 10 =
      FixedGeo.polygon [[(4096, 8192), (4096, 0), (0, 0), (4096, 8192)]] ∧
    shiftGeoSpec (FixedGeo.polygon [[(4096, 8192), (4096, 0), (0, 0), (4096, 8192)]]) 10 =
      FixedGeo.polygon [[(4, 8), (4, 0), (0, 0), (4, 8)]] ∧
    shiftGeoSpec (FixedGeo.polygon [[(4096, 8192), (4096, 0), (0, 0), (4096, 8192)]]) 10 ≠
      shiftGeo (FixedGeo.polygon [[(4096, 8192), (4096, 0), (0, 0), (4096, 8192)]]) 10 ∧
    shiftGeo (FixedGeo.point (4096, 8192)) 10 = FixedGeo.point (4, 8) ∧
    shiftGeo (FixedGeo.polyline [[(4096, 8192), (-4096, 0)]]) 10 =
      FixedGeo.polyline [[(4, 8), (-4, 0)]] := by
  decide

/-- C4.  The claim says `get_batch` steps with stride `2^max(8 - zc, 0)`, in
particular stride 1 (a full 256-tile batch) for every `zc ≥ 8`.  The code
computes the shift amount as `std::max(8u - zc, 0u)` in unsigned arithmetic:
for `zc = 9` the subtraction wraps to `2^32 - 1`, so the shift amount is at
least 32 and `1u << …` is no longer the claimed stride 1 (it is undefined in
C++).  For `zc ≤ 8` the computed amount matches the spec's `8 - zc`. -/
theorem get_batch_stride_underflows :
    shiftAmtCode 9 = 2 ^ 32 - 1 ∧ 32 ≤ shiftAmtCode 9 ∧ strideSpec 9 = 1 ∧
    shiftAmtCode 8 = 0 ∧ shiftAmtCode 0 = 8 ∧ strideSpec 0 = 2 ^ 8 := by
  decide

/-- C6.  The claim says byte-wise lexicographic order of the stored keys
equals numeric order.  `query_features` (part_001:19-23) builds its keys with
`std::to_string`, i.e. variable-width decimal ASCII, and both the store and
the loop condition `el->first < key_end` compare those strings byte-wise:
for the numeric keys 9 < 10 the decimal strings compare the other way around
("10" < "9"), so lexicographic order is not numeric order. -/
theorem string_keys_break_numeric_order :
    decKey 9 = [57] ∧ decKey 10 = [49, 48] ∧ (9 : Nat) < 10 ∧
    bytesLt (decKey 10) (decKey 9) = true ∧
    bytesLt (decKey 9) (decKey 10) = false := by
  decide

/-- C7 counterexample.  The claim says the OPTIONS route answers with status
204; the handler (part_004:24-28) builds `reply::stock_reply(reply::ok)`,
which is HTTP 200. -/
theorem options_status_not_204 : optionsRoute.status ≠ 204 := by
  decide

/-- C7, amended.  Every OPTIONS request is answered with status 200 (not
204) and carries the CORS headers. -/
theorem options_route_200_with_cors :
    optionsRoute.status = 200 ∧ optionsRoute.cors = true := by
  decide

/-- C8 counterexample.  The claim says a failing render yields an HTTP 500
response with empty body.  In the GET handler (part_004:31-51) both catch
blocks only log; `cb` is never invoked on the error path, so no response at
all is sent. -/
theorem get_route_failure_sends_nothing :
    getRoute (Except.error "render failed") = none := by
  decide

/-- C8, amended.  On a render failure the server logs and sends no response
(the callback is never invoked); only a successful render is answered, with
status 200 and the tile bytes. -/
theorem get_route_behaviour :
    (∀ e : String, getRoute (Except.error e) = none) ∧
    (∀ bytes : String,
      getRoute (Except.ok bytes) = some { status := 200, cors := true, content := bytes }) := by
  constructor
  · intro e; rfl
  · intro bytes; rfl

/-- C10.  The claim says the per-zoom `empty` statistic counts the tiles
whose rendered result had size 0.  `prepare_manager::finish`
(part_002:299-301) increments `n_empty_` when `size != 0`, so it counts the
*non-empty* tiles: after finishing a single tile of size 0 the counter is 0
although one result was empty, and after sizes `(0, 7, 9)` it is 2 although
exactly one result was empty.  (`n_finished_` does count every finished
tile.) -/
theorem empty_stat_counts_nonempty :
    (finishAll [(0, 5)]).nEmpty = 0 ∧ countEmptyResults [(0, 5)] = 1 ∧
    (finishAll [(0, 5), (7, 3), (9, 2)]).nEmpty = 2 ∧
    countEmptyResults [(0, 5), (7, 3), (9, 2)] = 1 ∧
    (finishAll [(0, 5), (7, 3), (9, 2)]).nFinished = 3 := by
  decide

/-! ### C3: transaction placement of deletes and pack writes -/

lemma del_tid_of_mem_batchTrace {k t i : Nat} {dels puts : List Nat}
    (h : DbEv.del k t ∈ batchTrace i dels puts) : t = 2 * i + 1 := by
  simp only [batchTrace, List.mem_append, List.mem_cons, List.mem_map,
    List.mem_singleton, List.not_mem_nil, or_false] at h
  aesop

lemma put_tid_of_mem_batchTrace {k t i : Nat} {dels puts : List Nat}
    (h : DbEv.put k t ∈ batchTrace i dels puts) : t = 2 * i + 2 := by
  simp only [batchTrace, List.mem_append, List.mem_cons, List.mem_map,
    List.mem_singleton, List.not_mem_nil, or_false] at h
  aesop

lemma del_tid_odd {sz : Tile → List String → Nat} {thresh : Nat} :
    ∀ (fuel : Nat) (entries : List DbEntry) (i k t : Nat),
      DbEv.del k t ∈ packDriver sz thresh fuel entries i → t % 2 = 1 := by
  intro fuel
  induction fuel with
  | zero => intro entries i k t h; simp [packDriver] at h
  | succ n ih =>
    intro entries i k t h
    simp only [packDriver, List.mem_append] at h
    rcases h with h | h
    · have := del_tid_of_mem_batchTrace h; omega
    · by_cases hr : ((collectLoop sz thresh entries sentinelTile [] 0).2.2).isEmpty
      · rw [if_pos hr] at h; cases h
      · rw [if_neg hr] at h; exact ih _ (i + 1) k t h

lemma put_tid_even {sz : Tile → List String → Nat} {thresh : Nat} :
    ∀ (fuel : Nat) (entries : List DbEntry) (i k t : Nat),
      DbEv.put k t ∈ packDriver sz thresh fuel entries i → t % 2 = 0 := by
  intro fuel
  induction fuel with
  | zero => intro entries i k t h; simp [packDriver] at h
  | succ n ih =>
    intro entries i k t h
    simp only [packDriver, List.mem_append] at h
    rcases h with h | h
    · have := put_tid_of_mem_batchTrace h; omega
    · by_cases hr : ((collectLoop sz thresh entries sentinelTile [] 0).2.2).isEmpty
      · rw [if_pos hr] at h; cases h
      · rw [if_neg hr] at h; exact ih _ (i + 1) k t h

/-- The concrete features table used to exhibit C3's transaction boundary:
one index tile with one raw entry. -/
def c3Entry : DbEntry := ⟨⟨10, 5, 7⟩, ["feature-a"]⟩

/-- The packing-phase trace over that table (pack sizes abstracted as
100 bytes per serialized feature). -/
def c3Trace : List DbEv := packPhaseTrace (fun _ fs => 100 * fs.length) [c3Entry]

/-- C3 counterexample.  The claim says a tile's raw entries are deleted in
the same transaction in which its pack is written.  Already for a one-entry
table the delete runs in transaction 1 and the pack write in transaction 2,
with a commit and an `env_.sync()` between them (feature_pack.cc:241-252). -/
theorem pack_delete_write_not_same_txn :
    ¬ (∀ k t t', DbEv.del k t ∈ c3Trace → DbEv.put k t' ∈ c3Trace → t = t') := by
  intro h
  have h1 : DbEv.del (makeFeatureKey ⟨10, 5, 7⟩) 1 ∈ c3Trace := by decide
  have h2 : DbEv.put (makeFeatureKey ⟨10, 5, 7⟩) 2 ∈ c3Trace := by decide
  exact absurd (h _ _ _ h1 h2) (by decide)

/-- C3, amended.  A delete of raw entries and a write of a replacement pack
never share a transaction: every batch deletes its source entries in a first
transaction (odd id), commits, syncs, and writes its packs in a second
transaction (even id). -/
theorem pack_deletes_and_writes_in_distinct_txns
    (sz : Tile → List String → Nat) (entries : List DbEntry) (k t k' t' : Nat)
    (hdel : DbEv.del k t ∈ packPhaseTrace sz entries)
    (hput : DbEv.put k' t' ∈ packPhaseTrace sz entries) : t ≠ t' := by
  have h1 := del_tid_odd (entries.length + 1) entries 0 k t hdel
  have h2 := put_tid_even (entries.length + 1) entries 0 k' t' hput
  omega

/-- Witness for C3's amended theorem at the one-entry table. -/
theorem pack_txn_split_witness :
    DbEv.del (makeFeatureKey ⟨10, 5, 7⟩) 1 ∈ c3Trace ∧
    DbEv.put (makeFeatureKey ⟨10, 5, 7⟩) 2 ∈ c3Trace ∧ (1 : Nat) ≠ 2 :=
  ⟨by decide, by decide,
    pack_deletes_and_writes_in_distinct_txns (fun _ fs => 100 * fs.length) [c3Entry]
      (makeFeatureKey ⟨10, 5, 7⟩) 1 (makeFeatureKey ⟨10, 5, 7⟩) 2 (by decide) (by decide)⟩

/-! ### C5: `find_best_tile` keeps the parent when two children match -/

lemma scan_two_of_matches (fb : Box) :
    ∀ cs : List Tile,
      (2 ≤ (cs.filter (fun c => boxOverlaps fb (insertBounds c))).length →
        scanChildren fb cs none = .twoMatch) ∧
      (∀ t, 1 ≤ (cs.filter (fun c => boxOverlaps fb (insertBounds c))).length →
        scanChildren fb cs (some t) = .twoMatch) := by
  intro cs
  induction cs with
  | nil =>
    refine ⟨fun h => ?_, fun t h => ?_⟩ <;> simp at h
  | cons c cs ih =>
    refine ⟨fun h => ?_, fun t h => ?_⟩
    · by_cases hc : boxOverlaps fb (insertBounds c)
      · simp only [scanChildren, hc, if_true]
        refine ih.2 c ?_
        simp only [List.filter_cons, hc, if_true, List.length_cons] at h
        omega
      · simp only [scanChildren, hc, Bool.false_eq_true, if_false]
        refine ih.1 ?_
        simpa only [List.filter_cons, hc, Bool.false_eq_true, if_false] using h
    · by_cases hc : boxOverlaps fb (insertBounds c)
      · simp [scanChildren, hc]
      · simp only [scanChildren, hc, Bool.false_eq_true, if_false]
        refine ih.2 t ?_
        simpa only [List.filter_cons, hc, Bool.false_eq_true, if_false] using h

/-- C5.  If at least two direct children of the index tile `T` match a
feature's bounding box (the box straddles them), `find_best_tile(T, f)`
returns `T` itself: the first scan over `direct_children()` hits its second
match and the loop returns the previous best, which is `T`. -/
theorem find_best_tile_straddle (T : Tile) (fb : Box)
    (h : 2 ≤ (T.directChildren.filter (fun c => boxOverlaps fb (insertBounds c))).length) :
    findBestTile T fb = some T := by
  unfold findBestTile
  cases hz : kMaxZoomLevel - T.z with
  | zero => rfl
  | succ n =>
    simp only [findBestTileAux, (scan_two_of_matches fb T.directChildren).1 h]

/-- Witness for C5: at the root tile, a box reaching across the vertical
midline of the world matches both western and eastern children. -/
theorem find_best_tile_straddle_witness :
    2 ≤ ((Tile.directChildren ⟨0, 0, 0⟩).filter
          (fun c => boxOverlaps ⟨0, 0, 2 ^ 31 + 5, 10⟩ (insertBounds c))).length ∧
    findBestTile ⟨0, 0, 0⟩ ⟨0, 0, 2 ^ 31 + 5, 10⟩ = some ⟨0, 0, 0⟩ :=
  ⟨by decide, find_best_tile_straddle ⟨0, 0, 0⟩ ⟨0, 0, 2 ^ 31 + 5, 10⟩ (by decide)⟩

/-! ### C9: layers emitted by `tile_builder::finish` -/

/-- A layer name is present with geometry in the builders map. -/
def TBState.hasLayer (st : TBState) (n : String) : Prop :=
  n ∈ st.names ∧ (st.get n).hasGeometry = true

lemma layerAddFeature_hasGeometry (sf : FixedGeo → Nat → FixedGeo)
    (cf : FixedGeo → FixedGeo) (z : Nat) (lb : LayerBuilder) (f : TFeature) :
    (layerAddFeature sf cf z lb f).hasGeometry =
      (lb.hasGeometry || (writeGeometry sf cf z f.geom).isSome) := by
  unfold layerAddFeature
  cases writeGeometry sf cf z f.geom <;> simp

lemma layerAddFeature_fields (sf : FixedGeo → Nat → FixedGeo)
    (cf : FixedGeo → FixedGeo) (z : Nat) (lb : LayerBuilder) (f : TFeature) :
    (layerAddFeature sf cf z lb f).version = lb.version ∧
    (layerAddFeature sf cf z lb f).extent = lb.extent ∧
    (layerAddFeature sf cf z lb f).name = lb.name := by
  unfold layerAddFeature
  cases writeGeometry sf cf z f.geom <;> exact ⟨rfl, rfl, rfl⟩

/-- The constructor-set fields hold for every builder of the map state. -/
def TBState.wf (st : TBState) : Prop :=
  ∀ n, (st.get n).version = 2 ∧ (st.get n).extent = 4096 ∧ (st.get n).name = n

lemma tbAddFeature_wf (sf : FixedGeo → Nat → FixedGeo) (cf : FixedGeo → FixedGeo)
    (z : Nat) (st : TBState) (f : TFeature) (h : st.wf) :
    (tbAddFeature sf cf z st f).wf := by
  unfold tbAddFeature
  cases hl : f.meta.lookup "layer" with
  | none => exact h
  | some nm =>
    intro n
    simp only
    by_cases hn : n = nm
    · subst hn
      rw [if_pos rfl]
      have hb := layerAddFeature_fields sf cf z
        (if st.names.contains n then st.get n else layerInit n) f
      rcases hb with ⟨h1, h2, h3⟩
      refine ⟨?_, ?_, ?_⟩ <;>
        · first
          | (rw [h1]; by_cases hc : st.names.contains n
             · rw [if_pos hc]; exact (h n).1
             · rw [if_neg hc]; rfl)
          | (rw [h2]; by_cases hc : st.names.contains n
             · rw [if_pos hc]; exact (h n).2.1
             · rw [if_neg hc]; rfl)
          | (rw [h3]; by_cases hc : st.names.contains n
             · rw [if_pos hc]; exact (h n).2.2
             · rw [if_neg hc]; rfl)
    · rw [if_neg hn]; exact h n

lemma tb_foldl_wf (sf : FixedGeo → Nat → FixedGeo) (cf : FixedGeo → FixedGeo) (z : Nat) :
    ∀ (fs : List TFeature) (st : TBState), st.wf →
      (fs.foldl (tbAddFeature sf cf z) st).wf := by
  intro fs
  induction fs with
  | nil => intro st h; exact h
  | cons f fs ih =>
    intro st h
    exact ih _ (tbAddFeature_wf sf cf z st f h)

lemma tbAddFeature_hasLayer (sf : FixedGeo → Nat → FixedGeo) (cf : FixedGeo → FixedGeo)
    (z : Nat) (st : TBState) (f : TFeature) (n : String) :
    (tbAddFeature sf cf z st f).hasLayer n ↔
      st.hasLayer n ∨
        (f.meta.lookup "layer" = some n ∧ (writeGeometry sf cf z f.geom).isSome = true) := by
  unfold tbAddFeature TBState.hasLayer
  cases hl : f.meta.lookup "layer" with
  | none => simp
  | some nm =>
    dsimp only
    by_cases hn : n = nm
    · subst hn
      by_cases hc : st.names.contains n
      · have hmem : n ∈ st.names := List.elem_iff.mp hc
        simp only [if_pos hc, eq_self_iff_true, if_true, layerAddFeature_hasGeometry,
          Bool.or_eq_true, hmem, true_and, Option.some.injEq]
      · have hmem : n ∉ st.names := fun h => hc (List.elem_iff.mpr h)
        simp only [if_neg hc, eq_self_iff_true, if_true, layerAddFeature_hasGeometry,
          Bool.or_eq_true, List.mem_append, List.mem_singleton, Option.some.injEq]
        simp only [layerInit, Bool.false_eq_true, false_or]
        simp [hmem]
    · have hne : ¬ nm = n := fun h => hn h.symm
      by_cases hc : st.names.contains nm
      · simp only [if_pos hc, if_neg hn, Option.some.injEq]
        simp [hne]
      · simp only [if_neg hc, if_neg hn, List.mem_append, List.mem_singleton,
          Option.some.injEq]
        simp [hne, hn]

lemma tb_foldl_hasLayer (sf : FixedGeo → Nat → FixedGeo) (cf : FixedGeo → FixedGeo)
    (z : Nat) :
    ∀ (fs : List TFeature) (st : TBState) (n : String),
      (fs.foldl (tbAddFeature sf cf z) st).hasLayer n ↔
        st.hasLayer n ∨
          ∃ f ∈ fs, f.meta.lookup "layer" = some n ∧
            (writeGeometry sf cf z f.geom).isSome = true := by
  intro fs
  induction fs with
  | nil => intro st n; simp
  | cons f fs ih =>
    intro st n
    rw [List.foldl_cons, ih, tbAddFeature_hasLayer]
    constructor
    · rintro ((h | h) | ⟨g, hg1, hg2⟩)
      · exact Or.inl h
      · exact Or.inr ⟨f, List.mem_cons_self f fs, h⟩
      · exact Or.inr ⟨g, List.mem_cons_of_mem f hg1, hg2⟩
    · rintro (h | ⟨g, hg1, hg2⟩)
      · exact Or.inl (Or.inl h)
      · rcases List.mem_cons.mp hg1 with hg | hg
        · subst hg; exact Or.inl (Or.inr hg2)
        · exact Or.inr ⟨g, hg, hg2⟩

/-- C9.  `finish()` emits exactly those layers for which some added feature
produced non-null geometry after simplify and clip (`write_geometry` returned
true), and every emitted layer carries version 2 and extent 4096.  The
theorem is parametric in `simplify` and `clip`, which live outside the given
sources. -/
theorem tile_builder_finish_layers (sf : FixedGeo → Nat → FixedGeo)
    (cf : FixedGeo → FixedGeo) (z : Nat) (fs : List TFeature) :
    (∀ L ∈ tileBuilderRun sf cf z fs, L.version = 2 ∧ L.extent = 4096) ∧
    (∀ name : String,
      (∃ L ∈ tileBuilderRun sf cf z fs, L.name = name) ↔
        ∃ f ∈ fs, f.meta.lookup "layer" = some name ∧
          (writeGeometry sf cf z f.geom).isSome = true) := by
  have hwf : (fs.foldl (tbAddFeature sf cf z) TBState.init).wf :=
    tb_foldl_wf sf cf z fs TBState.init (fun n => ⟨rfl, rfl, rfl⟩)
  have hinit : ∀ n : String, ¬ TBState.init.hasLayer n := by
    rintro n ⟨hm, -⟩; simp [TBState.init] at hm
  constructor
  · intro L hL
    unfold tileBuilderRun tbFinish at hL
    rcases List.mem_map.mp hL with ⟨n, hn, rfl⟩
    exact ⟨(hwf n).1, (hwf n).2.1⟩
  · intro name
    constructor
    · rintro ⟨L, hL, hname⟩
      unfold tileBuilderRun tbFinish at hL
      rcases List.mem_map.mp hL with ⟨n, hn, rfl⟩
      rcases List.mem_filter.mp hn with ⟨hmem, hgeom⟩
      have : n = name := by rw [← hname]; exact ((hwf n).2.2).symm
      subst this
      have := (tb_foldl_hasLayer sf cf z fs TBState.init n).mp
        ⟨hmem, by simpa using hgeom⟩
      rcases this with h | h
      · exact absurd h (hinit n)
      · exact h
    · intro h
      have := (tb_foldl_hasLayer sf cf z fs TBState.init name).mpr (Or.inr h)
      rcases this with ⟨hmem, hgeom⟩
      refine ⟨(fs.foldl (tbAddFeature sf cf z) TBState.init).get name, ?_,
        (hwf name).2.2⟩
      unfold tileBuilderRun tbFinish
      exact List.mem_map.mpr ⟨name, List.mem_filter.mpr ⟨hmem, by simpa using hgeom⟩, rfl⟩

/-- A concrete feature for C9's witness: one point feature on layer
"roads". -/
def c9F : TFeature := ⟨[("layer", "roads")], FixedGeo.point (3, 4)⟩

/-- Witness for C9: with identity simplify/clip, the single point feature
makes layer "roads" appear in the finished tile. -/
theorem tile_builder_finish_witness :
    ∃ L ∈ tileBuilderRun (fun g _ => g) (fun g => g) 5 [c9F], L.name = "roads" := by
  refine ((tile_builder_finish_layers (fun g _ => g) (fun g => g) 5 [c9F]).2 "roads").mpr ?_
  refine ⟨c9F, List.mem_singleton.mpr rfl, ?_, ?_⟩
  · rfl
  · rfl

/-! ### C1: the pack partitions the features and every span is reachable -/

lemma runsBy_flatten (eqk : α → α → Bool) : ∀ l : List α, (runsBy eqk l).flatten = l := by
  intro l
  induction l with
  | nil => rfl
  | cons a t ih =>
    unfold runsBy
    cases hr : runsBy eqk t with
    | nil =>
      rw [hr] at ih
      simp only [List.flatten_cons, List.flatten_nil, List.append_nil] at ih ⊢
      rw [← ih]
    | cons g gs =>
      cases g with
      | nil =>
        rw [hr] at ih
        simpa using ih
      | cons b g' =>
        rw [hr] at ih
        dsimp only
        by_cases he : eqk a b
        · rw [if_pos he]
          simpa using ih
        · rw [if_neg he]
          simpa using ih

lemma runsBy_ne_nil (eqk : α → α → Bool) :
    ∀ l : List α, ∀ g ∈ runsBy eqk l, g ≠ [] := by
  intro l
  induction l with
  | nil => intro g hg; cases hg
  | cons a t ih =>
    intro g hg
    unfold runsBy at hg
    cases hr : runsBy eqk t with
    | nil =>
      rw [hr] at hg
      rcases List.mem_singleton.mp hg with rfl
      exact List.cons_ne_nil a []
    | cons g0 gs =>
      rw [hr] at hg
      cases g0 with
      | nil =>
        rcases List.mem_cons.mp hg with rfl | hg'
        · exact List.cons_ne_nil a []
        · exact ih g (hr ▸ List.mem_cons_of_mem [] hg')
      | cons b g' =>
        dsimp only at hg
        by_cases he : eqk a b
        · rw [if_pos he] at hg
          rcases List.mem_cons.mp hg with rfl | hg'
          · exact List.cons_ne_nil a (b :: g')
          · exact ih g (hr ▸ List.mem_cons_of_mem (b :: g') hg')
        · rw [if_neg he] at hg
          rcases List.mem_cons.mp hg with rfl | hg'
          · exact List.cons_ne_nil a []
          · exact ih g (hr ▸ hg')

lemma mem_of_mem_runsBy (eqk : α → α → Bool) {l g : List α} {x : α}
    (hg : g ∈ runsBy eqk l) (hx : x ∈ g) : x ∈ l := by
  rw [← runsBy_flatten eqk l]
  exact List.mem_flatten.mpr ⟨g, hg, hx⟩

lemma sum_map_range_single (j c : Nat) :
    ∀ n, ((List.range n).map (fun i => if j = i then c else 0)).sum =
      if j < n then c else 0 := by
  intro n
  induction n with
  | zero => simp
  | succ m ih =>
    rw [List.range_succ, List.map_append, List.sum_append, ih]
    simp only [List.map_cons, List.map_nil, List.sum_cons, List.sum_nil]
    by_cases h1 : j < m
    · rw [if_pos h1, if_neg (by omega : ¬ j = m), if_pos (by omega)]
      omega
    · by_cases h3 : j = m
      · rw [if_neg h1, if_pos h3, if_pos (by omega)]
        omega
      · rw [if_neg h1, if_neg h3, if_neg (by omega)]
        rfl

lemma count_filter_ite [DecidableEq α] (p : α → Bool) (l : List α) (x : α) :
    (l.filter p).count x = if p x then l.count x else 0 := by
  by_cases h : p x
  · rw [if_pos h]
    exact List.count_filter h
  · rw [if_neg h]
    exact List.count_eq_zero.mpr (fun hmem => h (List.of_mem_filter hmem))

lemma flatten_filter_range_perm [DecidableEq α] (idx : α → Nat) (n : Nat) (l : List α)
    (h : ∀ a ∈ l, idx a < n) :
    (((List.range n).map (fun i => l.filter (fun a => idx a == i))).flatten).Perm l := by
  rw [List.perm_iff_count]
  intro x
  rw [List.count_flatten, List.map_map]
  have hcongr :
      (List.range n).map (List.count x ∘ fun i => l.filter (fun a => idx a == i)) =
      (List.range n).map (fun i => if idx x = i then l.count x else 0) := by
    refine List.map_congr_left ?_
    intro i _
    show (l.filter (fun a => idx a == i)).count x = _
    rw [count_filter_ite]
    by_cases hx : idx x = i
    · rw [if_pos (by simpa using hx), if_pos hx]
    · rw [if_neg (by simpa using hx), if_neg hx]
  rw [hcongr, sum_map_range_single]
  by_cases hm : x ∈ l
  · rw [if_pos (h x hm)]
  · rw [List.count_eq_zero_of_not_mem hm]
    split <;> rfl

lemma forall2_perm_of_maps (f g : α → List β) :
    ∀ L : List α, (∀ x ∈ L, (f x).Perm (g x)) →
      List.Forall₂ List.Perm (L.map f) (L.map g) := by
  intro L
  induction L with
  | nil => intro _; exact List.Forall₂.nil
  | cons a t ih =>
    intro h
    exact List.Forall₂.cons (h a (List.mem_cons_self a t))
      (ih (fun x hx => h x (List.mem_cons_of_mem a hx)))

lemma perm_flatten_of_forall2 {L1 L2 : List (List α)}
    (h : List.Forall₂ List.Perm L1 L2) : L1.flatten.Perm L2.flatten := by
  induction h with
  | nil => exact List.Perm.refl []
  | cons h1 _ ih => exact h1.append ih

lemma optionMap_proj (g : α → Option β) (proj : β → α)
    (hp : ∀ a b, g a = some b → proj b = a) :
    ∀ (l : List α) (l' : List β), optionMap g l = some l' → l'.map proj = l := by
  intro l
  induction l with
  | nil =>
    intro l' h
    simp only [optionMap] at h
    injection h with h
    rw [← h]
    rfl
  | cons a t ih =>
    intro l' h
    simp only [optionMap] at h
    cases hga : g a with
    | none => rw [hga] at h; cases h
    | some b =>
      rw [hga] at h
      cases hom : optionMap g t with
      | none => rw [hom] at h; cases h
      | some bs =>
        rw [hom] at h
        injection h with h
        rw [← h, List.map_cons, hp a b hga, ih bs hom]

lemma optionMap_mem (g : α → Option β) :
    ∀ (l : List α) (l' : List β), optionMap g l = some l' →
      ∀ b ∈ l', ∃ a ∈ l, g a = some b := by
  intro l
  induction l with
  | nil =>
    intro l' h b hb
    simp only [optionMap] at h
    injection h with h
    rw [← h] at hb
    cases hb
  | cons a t ih =>
    intro l' h b hb
    simp only [optionMap] at h
    cases hga : g a with
    | none => rw [hga] at h; cases h
    | some b0 =>
      rw [hga] at h
      cases hom : optionMap g t with
      | none => rw [hom] at h; cases h
      | some bs =>
        rw [hom] at h
        injection h with h
        rw [← h] at hb
        rcases List.mem_cons.mp hb with rfl | hb'
        · exact ⟨a, List.mem_cons_self a t, hga⟩
        · rcases ih bs hom b hb' with ⟨a', ha', hga'⟩
          exact ⟨a', List.mem_cons_of_mem a ha', hga'⟩

lemma ancestorAt_self (t : Tile) : t.ancestorAt t.z = t := by
  unfold Tile.ancestorAt
  simp

lemma ancestorOrSelf_refl (t : Tile) : ancestorOrSelf t t :=
  ⟨le_refl _, ancestorAt_self t⟩

lemma ancestorAt_ancestorAt (t : Tile) (z1 z2 : Nat) (h12 : z1 ≤ z2) (h2t : z2 ≤ t.z) :
    (t.ancestorAt z2).ancestorAt z1 = t.ancestorAt z1 := by
  unfold Tile.ancestorAt
  simp only [Tile.mk.injEq, true_and]
  constructor
  · rw [Nat.div_div_eq_div_mul, ← pow_add]
    congr 2
    omega
  · rw [Nat.div_div_eq_div_mul, ← pow_add]
    congr 2
    omega

lemma ancestorOrSelf_trans {a b c : Tile}
    (h1 : ancestorOrSelf a b) (h2 : ancestorOrSelf b c) : ancestorOrSelf a c := by
  obtain ⟨hz1, he1⟩ := h1
  obtain ⟨hz2, he2⟩ := h2
  refine ⟨le_trans hz1 hz2, ?_⟩
  calc c.ancestorAt a.z
      = (c.ancestorAt b.z).ancestorAt a.z :=
        (ancestorAt_ancestorAt c a.z b.z hz1 hz2).symm
    _ = b.ancestorAt a.z := by rw [he2]
    _ = a := he1

lemma ancestorOrSelf_child {t c : Tile} (h : c ∈ t.directChildren) :
    ancestorOrSelf t c := by
  have base : ∀ (z x y ε δ : Nat), ε ≤ 1 → δ ≤ 1 →
      Tile.ancestorAt ⟨z + 1, 2 * x + ε, 2 * y + δ⟩ z = ⟨z, x, y⟩ := by
    intro z x y ε δ hε hδ
    unfold Tile.ancestorAt
    simp only [Tile.mk.injEq]
    have h1 : z + 1 - z = 1 := by omega
    rw [h1, pow_one]
    refine ⟨by trivial, ?_, ?_⟩
    · rw [Nat.mul_add_div (by omega)]
      omega
    · rw [Nat.mul_add_div (by omega)]
      omega
  simp only [Tile.directChildren, List.mem_cons, List.mem_singleton,
    List.not_mem_nil, or_false] at h
  rcases h with rfl | rfl | rfl | rfl
  · exact ⟨Nat.le_succ t.z, by simpa using base t.z t.x t.y 0 0 (by omega) (by omega)⟩
  · exact ⟨Nat.le_succ t.z, base t.z t.x t.y 1 0 (by omega) (by omega)⟩
  · exact ⟨Nat.le_succ t.z, base t.z t.x t.y 0 1 (by omega) (by omega)⟩
  · exact ⟨Nat.le_succ t.z, base t.z t.x t.y 1 1 (by omega) (by omega)⟩

lemma scanChildren_oneMatch_src (fb : Box) :
    ∀ (cs : List Tile) (acc : Option Tile) (c : Tile),
      scanChildren fb cs acc = .oneMatch c → c ∈ cs ∨ acc = some c := by
  intro cs
  induction cs with
  | nil =>
    intro acc c h
    cases acc with
    | none => cases h
    | some t => injection h with h; exact Or.inr (congrArg some h)
  | cons d cs ih =>
    intro acc c h
    unfold scanChildren at h
    by_cases hd : boxOverlaps fb (insertBounds d)
    · rw [if_pos hd] at h
      cases acc with
      | some t => cases h
      | none =>
        rcases ih (some d) c h with h' | h'
        · exact Or.inl (List.mem_cons_of_mem d h')
        · injection h' with h'
          exact Or.inl (h' ▸ List.mem_cons_self d cs)
    · rw [if_neg hd] at h
      rcases ih acc c h with h' | h'
      · exact Or.inl (List.mem_cons_of_mem d h')
      · exact Or.inr h'

lemma findBestTileAux_ancestor (fb : Box) :
    ∀ (fuel : Nat) (t b : Tile), findBestTileAux fb fuel t = some b →
      ancestorOrSelf t b := by
  intro fuel
  induction fuel with
  | zero =>
    intro t b h
    injection h with h
    exact h ▸ ancestorOrSelf_refl t
  | succ n ih =>
    intro t b h
    unfold findBestTileAux at h
    cases hs : scanChildren fb t.directChildren none with
    | twoMatch =>
      rw [hs] at h
      injection h with h
      exact h ▸ ancestorOrSelf_refl t
    | oneMatch c =>
      rw [hs] at h
      rcases scanChildren_oneMatch_src fb t.directChildren none c hs with hc | hc
      · exact ancestorOrSelf_trans (ancestorOrSelf_child hc) (ih c b h)
      · cases hc
    | noMatch =>
      rw [hs] at h
      cases h

/-- A best tile returned by `find_best_tile(root, f)` is always the root
itself or one of its quad-tree descendants. -/
lemma findBestTile_ancestor {root b : Tile} {fb : Box}
    (h : findBestTile root fb = some b) : ancestorOrSelf root b :=
  findBestTileAux_ancestor fb (kMaxZoomLevel - root.z) root b h

lemma bucketSpans_feats (bucket : List PackableFeat) :
    ((bucketSpans bucket).map Span.feats).flatten =
      (bucket.mergeSort pfLe).map PackableFeat.feat := by
  unfold bucketSpans
  rw [List.map_map]
  have hcongr : ∀ run ∈ runsBy (fun a b => a.quadKey == b.quadKey) (bucket.mergeSort pfLe),
      (Span.feats ∘ runToSpan) run = run.map PackableFeat.feat := by
    intro run hrun
    have hne := runsBy_ne_nil (fun a b => a.quadKey == b.quadKey) _ run hrun
    cases run with
    | nil => exact absurd rfl hne
    | cons p ps => rfl
  rw [List.map_congr_left hcongr, ← List.map_flatten, runsBy_flatten]

lemma buildPF_feat {T : Tile} {a : PFeat} {b : PackableFeat}
    (hb : buildPF T a = some b) : b.feat = a := by
  unfold buildPF at hb
  cases hfb : findBestTile T a.box with
  | none => rw [hfb] at hb; cases hb
  | some bt => rw [hfb] at hb; injection hb with hb; rw [← hb]

lemma buildPF_bestTile {T : Tile} {a : PFeat} {b : PackableFeat}
    (hb : buildPF T a = some b) : findBestTile T a.box = some b.bestTile := by
  unfold buildPF at hb
  cases hfb : findBestTile T a.box with
  | none => rw [hfb] at hb; cases hb
  | some bt => rw [hfb] at hb; injection hb with hb; rw [← hb]

/-- C1.  A pack produced by `pack_features(T, …)` neither loses nor
duplicates features: the features written into its spans, over all min-z
buckets, are a permutation of the input features, every span is reachable by
the quad-tree lookup of some descendant tile of `T`, and lookups only ever
return the pack's own spans — so the union over all buckets and all
descendant lookups is exactly the input feature set. -/
theorem pack_features_no_loss_no_dup (T : Tile) (fs : List PFeat)
    (P : List (List Span)) (hpack : packFeaturesM T fs = some P) :
    packOk T fs P := by
  unfold packFeaturesM at hpack
  cases hmap : optionMap (buildPF T) fs with
  | none => rw [hmap] at hpack; cases hpack
  | some pfs =>
    rw [hmap] at hpack
    dsimp only at hpack
    by_cases hall : pfs.all (fun p => bucketIdx T p.feat < kMaxZoomLevel + 1 - T.z)
    · rw [if_pos hall] at hpack
      injection hpack with hpack
      subst hpack
      have hproj : pfs.map PackableFeat.feat = fs :=
        optionMap_proj (buildPF T) PackableFeat.feat (fun a b h => buildPF_feat h) fs pfs hmap
      have hlt : ∀ p ∈ pfs, bucketIdx T p.feat < kMaxZoomLevel + 1 - T.z := by
        intro p hp
        exact of_decide_eq_true ((List.all_eq_true.mp hall) p hp)
      refine ⟨?_, ?_, ?_⟩
      · have e1 : ((packBuckets T pfs).map bucketSpans).map
              (fun bucket => (bucket.map Span.feats).flatten)
            = (packBuckets T pfs).map
              (fun bucket => (bucket.mergeSort pfLe).map PackableFeat.feat) := by
          rw [List.map_map]
          exact List.map_congr_left (fun b _ => bucketSpans_feats b)
        rw [e1]
        have h2 : List.Forall₂ List.Perm
            ((packBuckets T pfs).map
              (fun bucket => (bucket.mergeSort pfLe).map PackableFeat.feat))
            ((packBuckets T pfs).map (fun bucket => bucket.map PackableFeat.feat)) :=
          forall2_perm_of_maps _ _ _
            (fun b _ => (List.mergeSort_perm b pfLe).map PackableFeat.feat)
        refine (perm_flatten_of_forall2 h2).trans ?_
        rw [← List.map_flatten]
        have h3 : ((packBuckets T pfs).flatten).Perm pfs := by
          unfold packBuckets
          exact flatten_filter_range_perm (fun p => bucketIdx T p.feat)
            (kMaxZoomLevel + 1 - T.z) pfs hlt
        exact hproj ▸ (h3.map PackableFeat.feat)
      · intro bucket hb s hs
        rcases List.mem_map.mp hb with ⟨b0, hb0, rfl⟩
        unfold bucketSpans at hs
        rcases List.mem_map.mp hs with ⟨run, hrun, rfl⟩
        have hne := runsBy_ne_nil (fun a b => a.quadKey == b.quadKey) _ run hrun
        cases run with
        | nil => exact absurd rfl hne
        | cons p ps =>
          have hp_mem : p ∈ b0.mergeSort pfLe :=
            mem_of_mem_runsBy (fun a b => a.quadKey == b.quadKey) hrun
              (List.mem_cons_self p ps)
          have hp_b0 : p ∈ b0 := (List.mergeSort_perm b0 pfLe).mem_iff.mp hp_mem
          have hp_pfs : p ∈ pfs := by
            rcases List.mem_map.mp hb0 with ⟨i, _, rfl⟩
            exact List.mem_of_mem_filter hp_b0
          rcases optionMap_mem (buildPF T) fs pfs hmap p hp_pfs with ⟨f, _, hbuild⟩
          have hdesc : ancestorOrSelf T p.bestTile :=
            findBestTile_ancestor (buildPF_bestTile hbuild)
          refine ⟨(runToSpan (p :: ps)).tile, hdesc, ?_⟩
          refine List.mem_filter.mpr ⟨?_, ?_⟩
          · exact List.mem_map.mpr ⟨p :: ps, hrun, rfl⟩
          · exact decide_eq_true (ancestorOrSelf_refl _)
      · intro bucket _ L s hs
        exact List.mem_of_mem_filter hs
    · rw [if_neg hall] at hpack
      cases hpack

/-- The index tile of C1's witness. -/
def c1T : Tile := ⟨0, 0, 0⟩

/-- The features of C1's witness: one box straddling the root's western and
eastern children, one straddling north and south with min zoom 3. -/
def c1Fs : List PFeat :=
  [⟨0, ⟨0, 0, 2 ^ 31 + 5, 10⟩, "a"⟩, ⟨3, ⟨5, 2 ^ 31 - 5, 10, 2 ^ 31 + 5⟩, "b"⟩]

/-- Witness for C1 on a concrete two-feature pack. -/
theorem pack_features_no_loss_witness :
    ∃ P, packFeaturesM c1T c1Fs = some P ∧ packOk c1T c1Fs P :=
  ⟨(packFeaturesM c1T c1Fs).get (by decide),
    (Option.some_get (by decide)).symm,
    pack_features_no_loss_no_dup c1T c1Fs _ (Option.some_get (by decide)).symm⟩

end Tiles
